import Mathlib

/-!
Shallow embedding of the two algorithmic cores of the `csv-tools` repository:
`csvselectcols.py` (the Column Projector) and `csvwidesplit.py` (the Wide
Splitter).

Modelling conventions:

* A cell value is a `List Char`; a row is a `List Cell`; CSV character
  streams are `List Char`.
* Python's `csv.reader`/`csv.writer` are modelled for quote-free input:
  a record is the cells joined by the one-character delimiter, terminated
  by a single newline (the source installs the `unix_excel` dialect whose
  `lineterminator` is the single character newline).  Field quoting and
  carriage returns are outside the modelled fragment; every concrete input
  used below is quote-free.
* Python floats are modelled as exact decimal values, represented as
  unnormalized pairs `(num : Int, exp : Nat)` denoting `num / 10 ^ exp`:
  `float` literal parsing accepts optionally signed fixed-point decimal
  literals
  (exponent, `inf`/`nan`, underscore and whitespace forms are outside the
  modelled fragment), `round(f, p)` is round-half-to-even at `p` decimal
  digits, and `str` of a rounded float prints the exact decimal with
  trailing zeros trimmed but at least one fractional digit, as Python does
  for moderate magnitudes.  The fixed-width truncation a `numpy` string
  array can apply on assignment is not modelled; no claim below depends on
  it.
* `sys.exit(1)` after a diagnostic is modelled by `Except.error` carrying
  the diagnosed column list; a Python runtime error (for example the
  `ZeroDivisionError` in `compute_splits` or `IndexError` on `rows.pop(0)`)
  is modelled by `Option.none`.  Theorems about the splitter restrict to
  inputs whose rows are nonempty, the domain on which `row[0]` does not
  raise.
-/

set_option autoImplicit false

namespace CsvTools

/-- Cell value of a CSV table: the characters of one field. -/
abbrev Cell : Type := List Char

/-- Row of a CSV table. -/
abbrev Row : Type := List Cell

/-! ### csvselectcols.py : column resolution -/

/-- Loop of `header_indices` (csvselectcols.py lines 67-74): walk the header
with position counter `i`, holding the not-yet-matched tail of `columns`;
the Python loop breaks once `len(ret) >= len(columns)`, i.e. once the
remaining column list is empty. -/
def hiAux : List Cell → List Cell → Nat → List Nat
  | _, [], _ => []
  | [], _ :: _, _ => []
  | v :: t, c :: cs, i =>
    if v = c then i :: hiAux t cs (i + 1) else hiAux t (c :: cs) (i + 1)

/-- Translation of `header_indices(header, columns)` (csvselectcols.py
lines 57-74): forward scan of the header recording an index exactly when
the current header cell equals the column the cursor points to. -/
def header_indices (header columns : List Cell) : List Nat :=
  hiAux header columns 0

/-- Translation of `set_diff(univ, subs)` (csvselectcols.py lines 77-89):
`[c for c in univ if c not in set(subs)]`, order preserving. -/
def set_diff (univ subs : List Cell) : List Cell :=
  univ.filter (fun c => decide (c ∉ subs))

/-- Translation of `check_columns(subs, columns)` (csvselectcols.py lines
92-109): if any requested column is missing, print the missing list to
stderr and `sys.exit(1)` — modelled as `Except.error` carrying the list. -/
def check_columns (subs columns : List Cell) : Except (List Cell) Unit :=
  let diff := set_diff subs columns
  if diff.isEmpty then Except.ok () else Except.error diff

/-! ### csvselectcols.py : numeric rounding (`round_row`) -/

/-- Decimal digit test, `48 ≤ code ≤ 57`. -/
def isDigitC (c : Char) : Bool := 48 ≤ c.toNat && c.toNat ≤ 57

/-- Numeric value of a digit character. -/
def digitVal (c : Char) : Nat := c.toNat - 48

/-- Value of a digit string, most significant digit first. -/
def natVal (l : List Char) : Nat :=
  l.foldl (fun a c => 10 * a + digitVal c) 0

/-- All characters are decimal digits. -/
def allDigits (l : List Char) : Bool := l.all isDigitC

/-- Parse a nonempty unsigned decimal digit string. -/
def parseNat (l : List Char) : Option Nat :=
  if l.isEmpty then none
  else if allDigits l then some (natVal l) else none

/-- Model of Python `int(s)` on plain decimal literals: optional sign
followed by a nonempty digit string; anything else raises, modelled as
`none`. -/
def parseInt : Cell → Option Int
  | [] => none
  | c :: r =>
    if c = '-' then (parseNat r).map (fun m => -(m : Int))
    else if c = '+' then (parseNat r).map (fun m => (m : Int))
    else (parseNat (c :: r)).map (fun m => (m : Int))

/-- Unsigned fixed-point part of Python `float(s)`: either a nonempty digit
string, or `ip . fp` with digit strings `ip`, `fp`, not both empty.  The
result is the exact decimal value as an unnormalized pair `(num, exp)`
denoting `num / 10 ^ exp`. -/
def parseUFloat (l : Cell) : Option (Nat × Nat) :=
  let ip := l.takeWhile (fun c => c ≠ '.')
  match l.dropWhile (fun c => c ≠ '.') with
  | [] => (parseNat l).map (fun n => (n, 0))
  | _ :: fp =>
    if (!ip.isEmpty || !fp.isEmpty) && allDigits ip && allDigits fp then
      some (natVal ip * 10 ^ fp.length + natVal fp, fp.length)
    else none

/-- Model of Python `float(s)` on fixed-point decimal literals, with
optional sign: the exact decimal value `num / 10 ^ exp` as a pair
`(num : Int, exp : Nat)`. -/
def parseFloat : Cell → Option (Int × Nat)
  | [] => none
  | c :: r =>
    if c = '-' then (parseUFloat r).map (fun x => (-(x.1 : Int), x.2))
    else if c = '+' then (parseUFloat r).map (fun x => ((x.1 : Int), x.2))
    else (parseUFloat (c :: r)).map (fun x => ((x.1 : Int), x.2))

/-- Multiply the decimal value `x.1 / 10 ^ x.2` by `10 ^ p`, exactly. -/
def scale10 (p : Int) (x : Int × Nat) : Int × Nat :=
  if 0 ≤ p then (x.1 * 10 ^ p.toNat, x.2) else (x.1, x.2 + (-p).toNat)

/-- Round the decimal value `x.1 / 10 ^ x.2` to the nearest integer, ties
to even — the rounding rule of Python's `round`. -/
def rndDec (x : Int × Nat) : Int :=
  let d : Int := ((10 ^ x.2 : Nat) : Int)
  let f := x.1.fdiv d
  let r := x.1 - f * d
  if 2 * r < d then f
  else if d < 2 * r then f + 1
  else if f % 2 = 0 then f else f + 1

/-- Character of a decimal digit. -/
def digitChar (d : Nat) : Char := Char.ofNat (48 + d)

/-- Decimal digit string of a natural number; `fuel` bounds the recursion
depth so the definition is structural and kernel-reducible. -/
def natDigitsAux : Nat → Nat → List Char
  | 0, _ => []
  | fuel + 1, n =>
    if n < 10 then [digitChar n]
    else natDigitsAux fuel (n / 10) ++ [digitChar (n % 10)]

/-- Decimal digit string of a natural number, as Python `str` prints it. -/
def natDigits (n : Nat) : List Char := natDigitsAux (n + 1) n

/-- Drop trailing `'0'` characters. -/
def trimZeros (l : List Char) : List Char :=
  (l.reverse.dropWhile (fun c => c == '0')).reverse

/-- Fractional digit block for a value `f < 10^P`: pad to `P` digits, trim
trailing zeros, keep at least one digit — the fractional part Python's
shortest `str` of the rounded float shows. -/
def fracDigits (P f : Nat) : List Char :=
  let d := natDigits f
  let t := trimZeros (List.replicate (P - d.length) '0' ++ d)
  if t.isEmpty then ['0'] else t

/-- String Python's `str` produces for the float `n / 10 ^ p` (the result
of `round` at precision `p`, scaled numerator `n`), for moderate
magnitudes: sign, integer part, `'.'`, fractional digits with trailing
zeros trimmed but at least one digit. -/
def printFloat (p : Int) (n : Int) : Cell :=
  if 0 < p then
    let P := p.toNat
    let a := n.natAbs
    let s := natDigits (a / 10 ^ P) ++ '.' :: fracDigits P (a % 10 ^ P)
    if n < 0 then '-' :: s else s
  else
    let a := n.natAbs * 10 ^ (-p).toNat
    let s := natDigits a ++ ['.', '0']
    if n < 0 then '-' :: s else s

/-- Transformation `round_row` applies to one cell (csvselectcols.py lines
150-158): try `int` — on success leave the cell unchanged; else try
`float` — on success replace the cell by `str(round(f, args.round))`; else
leave it unchanged. -/
def round_cell (p : Int) (s : Cell) : Cell :=
  match parseInt s with
  | some _ => s
  | none =>
    match parseFloat s with
    | some x => printFloat p (rndDec (scale10 p x))
    | none => s

/-- Translation of `round_row(row)` (csvselectcols.py lines 139-158): the
in-place loop over the row is a map of `round_cell` at `args.round`. -/
def round_row (p : Int) (row : Row) : Row := row.map (round_cell p)

/-! ### csvselectcols.py : the streaming pipeline `csv_select_cols` -/

/-- Model of `csv.reader` on a quote-free character stream: split into
lines at newline, drop the empty fragment a trailing newline leaves, split
each nonempty line at the delimiter (a blank line yields the empty row, as
`csv.reader` does). -/
def readCsv (d : Char) (input : List Char) : List Row :=
  let ls := input.splitOn '\n'
  let ls2 := if ls.getLast? = some [] then ls.dropLast else ls
  ls2.map (fun line => if line.isEmpty then ([] : Row) else line.splitOn d)

/-- Model of `csv.writer(..., dialect=unix_excel).writerow` on quote-free
cells: cells joined by the delimiter, terminated by one `'\n'`. -/
def writeRecord (d : Char) (row : Row) : List Char :=
  List.intercalate [d] row ++ ['\n']

/-- Projection `numpy.array(row)[indices]` (csvselectcols.py line 181). -/
def project (row : Row) (indices : List Nat) : Row :=
  indices.map (fun i => row.getD i [])

/-- Configuration of the Column Projector after `main` resolved the
defaults: mirrors the global `args` object of csvselectcols.py. -/
structure SelArgs where
  complement : Bool
  input_delimiter : Char
  output_delimiter : Char
  round : Int

/-- Translation of the streaming strategy `csv_select_cols(columns)`
(csvselectcols.py lines 161-183).  As in the source, the `csv.reader` on
stdin is built with `delimiter=args.output_delimiter` (line 174) and the
`csv.writer` on stdout with `delimiter=args.input_delimiter` (line 170);
on the first row the requested columns are checked (exit 1 on a missing
one), the complement is taken if requested, indices are resolved, and then
every row — the header included — is projected, passed through
`round_row` unconditionally, and written. -/
def csv_select_cols (args : SelArgs) (columns : List Cell) (input : List Char) :
    Except (List Cell) (List Char) :=
  match readCsv args.output_delimiter input with
  | [] => Except.ok []
  | headerRow :: rest =>
    match check_columns columns headerRow with
    | Except.error missing => Except.error missing
    | Except.ok _ =>
      let cols := if args.complement then set_diff headerRow columns else columns
      let indices := header_indices headerRow cols
      Except.ok (List.flatten ((headerRow :: rest).map
        (fun row => writeRecord args.input_delimiter
          (round_row args.round (project row indices)))))

/-! ### csvwidesplit.py -/

/-- Test `row[0].startswith('#')` (csvwidesplit.py line 56).  Python raises
`IndexError` on an empty row; the theorems below restrict to inputs whose
rows are nonempty, where this total rendering agrees with the source. -/
def hashRow : Row → Bool
  | [] => false
  | c :: _ => ['#'].isPrefixOf c

/-- Rows retained by `run` (csvwidesplit.py line 56): every input row whose
first cell does not start with `'#'`. -/
def keptRows (rows : List Row) : List Row :=
  rows.filter (fun r => !hashRow r)

/-- Number of chunks computed by `compute_splits` (csvwidesplit.py lines
41-42): `quot` if the division is exact, else `quot + 1`. -/
def nsplitsFor (ncols W : Nat) : Nat :=
  if ncols % W = 0 then ncols / W else ncols / W + 1

/-- Translation of `CsvWideSplit.compute_splits` (csvwidesplit.py lines
27-47), eliding the file names (only their number is claimed): the
effective chunk width (the source overwrites `args.ncols` with the
splittable count when it is `≤ 0`) and the split count.  A zero effective
width makes `ncols // self.args.ncols` raise `ZeroDivisionError`,
modelled as `none`. -/
def compute_splits (ncols0 : Int) (header : Row) : Option (Nat × Nat) :=
  let ncols : Nat := header.length - 1
  let W : Int := if ncols0 ≤ 0 then (ncols : Int) else ncols0
  if W = 0 then none
  else some (W.toNat, nsplitsFor ncols W.toNat)

/-- Python slice `xs[l:r]` for `l ≤ r`. -/
def pySlice (l r : Nat) {α : Type} (xs : List α) : List α :=
  (xs.drop l).take (r - l)

/-- Translation of `CsvWideSplit.run` (csvwidesplit.py lines 50-68) up to
the files written: comment rows are discarded, the first remaining row is
popped as the header (`IndexError`, i.e. `none`, when nothing remains),
and for each split `i` one output table is produced whose header is `['']`
followed by `header[l:r]` and whose data rows are `row[0:1] + row[l:r]`,
with `l = i*W + 1`, `r = l + W`. -/
def CsvWideSplit_run (ncols0 : Int) (rows : List Row) :
    Option (List (List Row)) :=
  match keptRows rows with
  | [] => none
  | header :: data =>
    (compute_splits ncols0 header).map (fun p =>
      (List.range p.2).map (fun i =>
        let l := i * p.1 + 1
        let r := l + p.1
        (([] : Cell) :: pySlice l r header) ::
          data.map (fun row => row.take 1 ++ pySlice l r row)))

/-! ### Properties of the column-index resolution -/

theorem hiAux_length_le (h : List Cell) : ∀ (c : List Cell) (i : Nat),
    (hiAux h c i).length ≤ c.length := by
  induction h with
  | nil => intro c i; cases c <;> simp [hiAux]
  | cons v t ih =>
    intro c i
    cases c with
    | nil => simp [hiAux]
    | cons c0 cs =>
      by_cases hv : v = c0
      · simpa [hiAux, hv] using Nat.succ_le_succ (ih cs (i + 1))
      · simpa [hiAux, hv] using ih (c0 :: cs) (i + 1)

theorem hiAux_mem_bounds (h : List Cell) : ∀ (c : List Cell) (i j : Nat),
    j ∈ hiAux h c i → i ≤ j ∧ j < i + h.length := by
  induction h with
  | nil => intro c i j hj; cases c <;> simp [hiAux] at hj
  | cons v t ih =>
    intro c i j hj
    cases c with
    | nil => simp [hiAux] at hj
    | cons c0 cs =>
      by_cases hv : v = c0
      · simp only [hiAux, if_pos hv, List.mem_cons] at hj
        rcases hj with rfl | hj
        · simp
        · have := ih cs (i + 1) j hj
          simp only [List.length_cons]
          omega
      · simp only [hiAux, if_neg hv] at hj
        have := ih (c0 :: cs) (i + 1) j hj
        simp only [List.length_cons]
        omega

theorem hiAux_pairwise (h : List Cell) : ∀ (c : List Cell) (i : Nat),
    List.Pairwise (· < ·) (hiAux h c i) := by
  induction h with
  | nil => intro c i; cases c <;> simp [hiAux]
  | cons v t ih =>
    intro c i
    cases c with
    | nil => simp [hiAux]
    | cons c0 cs =>
      by_cases hv : v = c0
      · simp only [hiAux, if_pos hv]
        refine List.Pairwise.cons ?_ (ih cs (i + 1))
        intro j hj
        have := hiAux_mem_bounds t cs (i + 1) j hj
        omega
      · simpa [hiAux, hv] using ih (c0 :: cs) (i + 1)

theorem hiAux_map_getD (h : List Cell) : ∀ (c : List Cell) (i : Nat),
    (hiAux h c i).map (fun j => h.getD (j - i) []) =
      c.take (hiAux h c i).length := by
  induction h with
  | nil => intro c i; cases c <;> simp [hiAux]
  | cons v t ih =>
    intro c i
    cases c with
    | nil => simp [hiAux]
    | cons c0 cs =>
      by_cases hv : v = c0
      · simp only [hiAux, if_pos hv, List.map_cons, List.length_cons,
          List.take_succ_cons]
        refine congrArg₂ _ ?_ ?_
        · simpa using hv
        · calc (hiAux t cs (i + 1)).map (fun j => (v :: t).getD (j - i) [])
              = (hiAux t cs (i + 1)).map (fun j => t.getD (j - (i + 1)) []) := by
                refine List.map_congr_left ?_
                intro j hj
                have hb := hiAux_mem_bounds t cs (i + 1) j hj
                have hji : j - i = (j - (i + 1)) + 1 := by omega
                rw [hji, List.getD_cons_succ]
            _ = cs.take (hiAux t cs (i + 1)).length := ih cs (i + 1)
      · simp only [hiAux, if_neg hv]
        calc (hiAux t (c0 :: cs) (i + 1)).map (fun j => (v :: t).getD (j - i) [])
            = (hiAux t (c0 :: cs) (i + 1)).map
                (fun j => t.getD (j - (i + 1)) []) := by
              refine List.map_congr_left ?_
              intro j hj
              have hb := hiAux_mem_bounds t (c0 :: cs) (i + 1) j hj
              have hji : j - i = (j - (i + 1)) + 1 := by omega
              rw [hji, List.getD_cons_succ]
          _ = (c0 :: cs).take (hiAux t (c0 :: cs) (i + 1)).length :=
              ih (c0 :: cs) (i + 1)

theorem hiAux_greedy_max (h : List Cell) : ∀ (c : List Cell) (m i : Nat),
    m ≤ c.length → (c.take m).Sublist h → m ≤ (hiAux h c i).length := by
  induction h with
  | nil =>
    intro c m i hm hs
    have h0 : c.take m = [] := List.sublist_nil.mp hs
    have := congrArg List.length h0
    simp only [List.length_take, List.length_nil] at this
    omega
  | cons v t ih =>
    intro c m i hm hs
    cases c with
    | nil =>
      simp only [List.length_nil] at hm
      omega
    | cons c0 cs =>
      by_cases hv : v = c0
      · cases m with
        | zero => exact Nat.zero_le _
        | succ m' =>
          simp only [List.take_succ_cons] at hs
          have hs' : (cs.take m').Sublist t := by
            cases hs with
            | cons _ hsk =>
              exact (List.sublist_cons_self c0 (cs.take m')).trans hsk
            | cons₂ _ hsk => exact hsk
          have hm' : m' ≤ cs.length := by
            simpa using Nat.le_of_succ_le_succ hm
          have := ih cs m' (i + 1) hm' hs'
          simp only [hiAux, if_pos hv, List.length_cons]
          omega
      · cases m with
        | zero => exact Nat.zero_le _
        | succ m' =>
          simp only [List.take_succ_cons] at hs
          have hs' : (c0 :: cs.take m').Sublist t := by
            cases hs with
            | cons _ hsk => exact hsk
            | cons₂ _ hsk => exact absurd rfl hv
          simp only [hiAux, if_neg hv]
          refine ih (c0 :: cs) (m' + 1) (i + 1) hm ?_
          simpa using hs'

theorem zip_self_filterMap (p : Cell → Bool) (h : List Cell) :
    (h.zip h).filterMap (fun pr => if p pr.1 then some pr.2 else none) =
      h.filter p := by
  induction h with
  | nil => simp
  | cons v t ih => cases hp : p v <;> simp [hp, ih]

theorem filterMap_zip_of_filter_nil (p : Cell → Bool) (t : List Cell)
    (hf : t.filter p = []) (rs : Row) :
    (t.zip rs).filterMap (fun pr => if p pr.1 then some pr.2 else none) = [] := by
  rw [List.filterMap_eq_nil_iff]
  intro pr hpr
  have hmem := List.of_mem_zip hpr
  have hfp : p pr.1 = false := by
    have := List.filter_eq_nil_iff.mp hf pr.1 hmem.1
    simpa using this
  simp [hfp]

theorem hiAux_filter_map (p : Cell → Bool) (h : List Cell) :
    ∀ (i : Nat) (row : Row), row.length = h.length →
    (hiAux h (h.filter p) i).map (fun j => row.getD (j - i) []) =
      (h.zip row).filterMap (fun pr => if p pr.1 then some pr.2 else none) := by
  induction h with
  | nil =>
    intro i row _
    simp [hiAux]
  | cons v t ih =>
    intro i row hr
    cases row with
    | nil => simp at hr
    | cons r rs =>
      have hr' : rs.length = t.length := by simpa using hr
      have tailstep : ∀ (cc : List Cell),
          (hiAux t cc (i + 1)).map (fun j => (r :: rs).getD (j - i) []) =
            (hiAux t cc (i + 1)).map (fun j => rs.getD (j - (i + 1)) []) := by
        intro cc
        refine List.map_congr_left ?_
        intro j hj
        have hb := hiAux_mem_bounds t cc (i + 1) j hj
        have hji : j - i = (j - (i + 1)) + 1 := by omega
        rw [hji, List.getD_cons_succ]
      cases hp : p v with
      | true =>
        have hfc : (v :: t).filter p = v :: t.filter p :=
          List.filter_cons_of_pos hp
        have hfm : ((v, r) :: t.zip rs).filterMap
            (fun pr => if p pr.1 then some pr.2 else none) =
            r :: (t.zip rs).filterMap
              (fun pr => if p pr.1 then some pr.2 else none) := by
          rw [List.filterMap_cons_some]
          simp [hp]
        rw [hfc, List.zip_cons_cons, hfm]
        have hia : hiAux (v :: t) (v :: t.filter p) i =
            i :: hiAux t (t.filter p) (i + 1) := by
          simp [hiAux]
        rw [hia, List.map_cons, Nat.sub_self, List.getD_cons_zero]
        refine congrArg (List.cons r) ?_
        rw [tailstep]
        exact ih (i + 1) rs hr'
      | false =>
        have hfc : (v :: t).filter p = t.filter p :=
          List.filter_cons_of_neg (by simp [hp])
        have hfm : ((v, r) :: t.zip rs).filterMap
            (fun pr => if p pr.1 then some pr.2 else none) =
            (t.zip rs).filterMap
              (fun pr => if p pr.1 then some pr.2 else none) := by
          rw [List.filterMap_cons_none]
          simp [hp]
        rw [hfc, List.zip_cons_cons, hfm]
        cases hf : t.filter p with
        | nil =>
          rw [filterMap_zip_of_filter_nil p t hf rs]
          simp [hiAux]
        | cons w ws =>
          have hw : p w = true := by
            have : w ∈ t.filter p := by rw [hf]; exact List.mem_cons_self _ _
            exact (List.mem_filter.mp this).2
          have hvw : v ≠ w := by
            intro hvw
            rw [hvw, hw] at hp
            simp at hp
          have hia : hiAux (v :: t) (w :: ws) i = hiAux t (w :: ws) (i + 1) := by
            simp [hiAux, hvw]
          rw [hia, tailstep, ← hf]
          exact ih (i + 1) rs hr'

/-! ### Properties of the column check -/

theorem mem_set_diff (univ subs : List Cell) (c : Cell) :
    c ∈ set_diff univ subs ↔ c ∈ univ ∧ c ∉ subs := by
  simp [set_diff]

theorem set_diff_eq_nil_iff (univ subs : List Cell) :
    set_diff univ subs = [] ↔ ∀ c ∈ univ, c ∈ subs := by
  simp [set_diff, List.filter_eq_nil_iff]

theorem check_columns_ok (subs columns : List Cell)
    (h : ∀ c ∈ subs, c ∈ columns) :
    check_columns subs columns = Except.ok () := by
  have h0 : set_diff subs columns = [] := (set_diff_eq_nil_iff _ _).mpr h
  simp [check_columns, h0]

theorem check_columns_error (subs columns : List Cell)
    (h : ∃ c ∈ subs, c ∉ columns) :
    check_columns subs columns = Except.error (set_diff subs columns) := by
  have hne : ¬ set_diff subs columns = [] := by
    obtain ⟨c, hc1, hc2⟩ := h
    intro h0
    exact hc2 ((set_diff_eq_nil_iff _ _).mp h0 c hc1)
  simp [check_columns, hne]

/-! ### Properties of the splitter arithmetic -/

theorem ceil_div_aux (W q r : Nat) (hW : 0 < W) (hr : r < W) :
    (W * q + r + (W - 1)) / W = if r = 0 then q else q + 1 := by
  by_cases h0 : r = 0
  · subst h0
    rw [if_pos rfl]
    have he : W * q + 0 + (W - 1) = W * q + (W - 1) := by omega
    rw [he, Nat.mul_add_div hW, Nat.div_eq_of_lt (by omega)]
    try omega
  · rw [if_neg h0]
    have he : W * q + r + (W - 1) = W * (q + 1) + (r - 1) := by
      rw [Nat.mul_add, Nat.mul_one]
      omega
    rw [he, Nat.mul_add_div hW, Nat.div_eq_of_lt (by omega)]
    try omega

theorem nsplitsFor_eq_ceil (L W : Nat) (hW : 0 < W) :
    nsplitsFor L W = (L + (W - 1)) / W := by
  have hL : L = W * (L / W) + L % W := (Nat.div_add_mod L W).symm
  have hrW : L % W < W := Nat.mod_lt _ hW
  calc nsplitsFor L W
      = if L % W = 0 then L / W else L / W + 1 := rfl
    _ = (W * (L / W) + L % W + (W - 1)) / W :=
        (ceil_div_aux W (L / W) (L % W) hW hrW).symm
    _ = (L + (W - 1)) / W := by rw [← hL]

theorem nsplitsFor_succ (L W : Nat) (hW : 0 < W) (hL : 0 < L) :
    nsplitsFor L W = nsplitsFor (L - W) W + 1 := by
  unfold nsplitsFor
  rcases Nat.lt_or_ge L W with hlt | hge
  · have h1 : L % W = L := Nat.mod_eq_of_lt hlt
    have h2 : L / W = 0 := Nat.div_eq_of_lt hlt
    have h3 : L - W = 0 := by omega
    rw [h1, h2, h3]
    simp [Nat.zero_mod, Nat.zero_div]
    omega
  · have hL' : L = (L - W) + W := by omega
    rw [hL', Nat.add_mod_right, Nat.add_div_right _ hW]
    have hback : L - W + W - W = L - W := by omega
    rw [hback]
    by_cases hm : (L - W) % W = 0 <;> simp [hm]

theorem chunks_flatten {α : Type} (W : Nat) (hW : 0 < W) :
    ∀ (n : Nat) (t : List α), t.length ≤ n →
    ((List.range (nsplitsFor t.length W)).map
        (fun i => (t.drop (i * W)).take W)).flatten = t := by
  intro n
  induction n with
  | zero =>
    intro t ht
    have h0 : t = [] := List.eq_nil_of_length_eq_zero (Nat.le_zero.mp ht)
    subst h0
    simp [nsplitsFor]
  | succ n ih =>
    intro t ht
    by_cases h0 : t.length = 0
    · have h0' : t = [] := List.eq_nil_of_length_eq_zero h0
      subst h0'
      simp [nsplitsFor]
    · rw [nsplitsFor_succ t.length W hW (by omega)]
      rw [List.range_succ_eq_map, List.map_cons, List.flatten_cons]
      have hdrop : ∀ i : Nat, (t.drop ((i + 1) * W)).take W =
          ((t.drop W).drop (i * W)).take W := by
        intro i
        rw [List.drop_drop]
        congr 1
        ring_nf
      have hmm : (List.range (nsplitsFor (t.length - W) W)).map
            ((fun i => (t.drop (i * W)).take W) ∘ Nat.succ) =
          (List.range (nsplitsFor (t.drop W).length W)).map
            (fun i => ((t.drop W).drop (i * W)).take W) := by
        rw [List.length_drop]
        refine List.map_congr_left ?_
        intro i _
        simpa [Function.comp, Nat.succ_eq_add_one] using hdrop i
      rw [List.map_map, hmm, ih (t.drop W) (by rw [List.length_drop]; omega)]
      simp [Nat.zero_mul, List.drop_zero, List.take_append_drop]

/-! ### Properties of the splitter pipeline -/

theorem mem_keptRows (rows : List Row) (r : Row) :
    r ∈ keptRows rows ↔ r ∈ rows ∧ hashRow r = false := by
  simp [keptRows]

theorem run_eq_of_pos (ncols0 : Int) (rows : List Row) (header : Row)
    (data : List Row) (hk : keptRows rows = header :: data) (hW : 0 < ncols0) :
    CsvWideSplit_run ncols0 rows = some
      ((List.range (nsplitsFor (header.length - 1) ncols0.toNat)).map (fun i =>
        (([] : Cell) :: pySlice (i * ncols0.toNat + 1)
            (i * ncols0.toNat + 1 + ncols0.toNat) header) ::
          data.map (fun row => row.take 1 ++ pySlice (i * ncols0.toNat + 1)
            (i * ncols0.toNat + 1 + ncols0.toNat) row))) := by
  have h1 : ¬ ncols0 ≤ 0 := by omega
  have h2 : ncols0 ≠ 0 := by omega
  unfold CsvWideSplit_run compute_splits
  rw [hk]
  simp only [if_neg h1, if_neg h2, Option.map_some']

theorem run_eq_of_nonpos (ncols0 : Int) (rows : List Row) (header : Row)
    (data : List Row) (hk : keptRows rows = header :: data) (hW : ncols0 ≤ 0)
    (hL : 2 ≤ header.length) :
    CsvWideSplit_run ncols0 rows = some
      [(([] : Cell) :: pySlice 1 (1 + (header.length - 1)) header) ::
        data.map (fun row => row.take 1 ++
          pySlice 1 (1 + (header.length - 1)) row)] := by
  have h2 : ((header.length - 1 : Nat) : Int) ≠ 0 := by omega
  have hone : nsplitsFor (header.length - 1) (header.length - 1) = 1 := by
    have hpos : 0 < header.length - 1 := by omega
    simp [nsplitsFor, Nat.mod_self, Nat.div_self hpos]
  unfold CsvWideSplit_run compute_splits
  rw [hk]
  simp only [if_pos hW, if_neg h2, Option.map_some', Int.toNat_natCast, hone]
  norm_num [List.range_succ]

theorem run_rows_shape (ncols0 : Int) (rows : List Row) (ts : List (List Row))
    (hts : CsvWideSplit_run ncols0 rows = some ts) :
    ∃ header data, keptRows rows = header :: data ∧
      ∀ t ∈ ts, ∃ l r, t = (([] : Cell) :: pySlice l r header) ::
        data.map (fun row => row.take 1 ++ pySlice l r row) := by
  unfold CsvWideSplit_run at hts
  cases hk : keptRows rows with
  | nil => rw [hk] at hts; simp at hts
  | cons header data =>
    rw [hk] at hts
    dsimp only at hts
    cases hcs : compute_splits ncols0 header with
    | none => rw [hcs] at hts; simp at hts
    | some p =>
      rw [hcs, Option.map_some', Option.some.injEq] at hts
      refine ⟨header, data, rfl, ?_⟩
      intro t ht
      rw [← hts] at ht
      obtain ⟨i, _, hit⟩ := List.mem_map.mp ht
      exact ⟨i * p.1 + 1, i * p.1 + 1 + p.1, hit.symm⟩

theorem hashRow_take_append (row : Row) (hne : row ≠ []) (xs : Row) :
    hashRow (row.take 1 ++ xs) = hashRow row := by
  cases row with
  | nil => exact absurd rfl hne
  | cons c cr => simp [hashRow, List.take_succ_cons]

theorem run_output_no_hash (ncols0 : Int) (rows : List Row)
    (hne : ∀ r ∈ rows, r ≠ []) (ts : List (List Row))
    (hts : CsvWideSplit_run ncols0 rows = some ts) :
    ∀ t ∈ ts, ∀ out ∈ t, hashRow out = false := by
  obtain ⟨header, data, hk, hshape⟩ := run_rows_shape ncols0 rows ts hts
  intro t ht out hout
  obtain ⟨l, r, rfl⟩ := hshape t ht
  rcases hout with _ | hout
  · simp [hashRow, List.isPrefixOf]
  · rename_i hout
    obtain ⟨row, hrow, rfl⟩ := List.mem_map.mp hout
    have hrow' : row ∈ keptRows rows := by
      rw [hk]
      exact List.mem_cons_of_mem _ hrow
    have hmem := (mem_keptRows rows row).mp hrow'
    rw [hashRow_take_append row (hne row hmem.1) _]
    exact hmem.2

/-! ### Digit strings -/

theorem digitChar_toNat (d : Nat) (h : d < 10) : (digitChar d).toNat = 48 + d := by
  interval_cases d <;> decide

theorem isDigitC_digitChar (d : Nat) (h : d < 10) :
    isDigitC (digitChar d) = true := by
  interval_cases d <;> decide

theorem digitVal_digitChar (d : Nat) (h : d < 10) :
    digitVal (digitChar d) = d := by
  simp [digitVal, digitChar_toNat d h]

theorem isDigitC_ne_dot (c : Char) (h : isDigitC c = true) : c ≠ '.' := by
  intro hc
  rw [hc] at h
  exact absurd h (by decide)

theorem isDigitC_ne_dash (c : Char) (h : isDigitC c = true) : c ≠ '-' := by
  intro hc
  rw [hc] at h
  exact absurd h (by decide)

theorem isDigitC_ne_plus (c : Char) (h : isDigitC c = true) : c ≠ '+' := by
  intro hc
  rw [hc] at h
  exact absurd h (by decide)

theorem natVal_go (l : List Char) : ∀ (a : Nat),
    l.foldl (fun a c => 10 * a + digitVal c) a = a * 10 ^ l.length + natVal l := by
  induction l with
  | nil => intro a; simp [natVal]
  | cons c t ih =>
    intro a
    have hv : natVal (c :: t) = digitVal c * 10 ^ t.length + natVal t := by
      show t.foldl _ (10 * 0 + digitVal c) = _
      rw [ih (10 * 0 + digitVal c)]
      ring_nf
    simp only [List.foldl_cons, List.length_cons]
    rw [ih (10 * a + digitVal c), hv]
    ring

theorem natVal_append (xs ys : List Char) :
    natVal (xs ++ ys) = natVal xs * 10 ^ ys.length + natVal ys := by
  show (xs ++ ys).foldl _ 0 = _
  rw [List.foldl_append, natVal_go ys]
  rfl

theorem natVal_singleton (c : Char) : natVal [c] = digitVal c := by
  simp [natVal]

theorem natVal_replicate_zero (k : Nat) :
    natVal (List.replicate k '0') = 0 := by
  induction k with
  | zero => rfl
  | succ k ih =>
    show (List.replicate k '0').foldl _ (10 * 0 + digitVal '0') = 0
    have h0 : 10 * 0 + digitVal '0' = 0 := by decide
    rw [h0]
    exact ih

theorem natVal_leading_zeros (k : Nat) (d : List Char) :
    natVal (List.replicate k '0' ++ d) = natVal d := by
  rw [natVal_append, natVal_replicate_zero]
  ring

theorem natVal_trailing_zeros (xs : List Char) (k : Nat) :
    natVal (xs ++ List.replicate k '0') = natVal xs * 10 ^ k := by
  rw [natVal_append, natVal_replicate_zero, List.length_replicate]
  ring

theorem natDigitsAux_spec : ∀ (fuel n : Nat), n ≤ fuel →
    natVal (natDigitsAux (fuel + 1) n) = n ∧
    natDigitsAux (fuel + 1) n ≠ [] ∧
    (∀ c ∈ natDigitsAux (fuel + 1) n, isDigitC c = true) := by
  intro fuel
  induction fuel with
  | zero =>
    intro n hn
    have h0 : n = 0 := Nat.le_zero.mp hn
    subst h0
    refine ⟨by decide, by decide, by decide⟩
  | succ f ih =>
    intro n hn
    by_cases h10 : n < 10
    · unfold natDigitsAux
      rw [if_pos h10]
      refine ⟨?_, by simp, ?_⟩
      · rw [natVal_singleton, digitVal_digitChar n h10]
      · intro c hc
        have hc' : c = digitChar n := by simpa using hc
        subst hc'
        exact isDigitC_digitChar n h10
    · unfold natDigitsAux
      rw [if_neg h10]
      have hrec : n / 10 ≤ f := by
        have := Nat.div_lt_self (by omega : 0 < n) (by norm_num : 1 < 10)
        omega
      obtain ⟨hval, hne, hdig⟩ := ih (n / 10) hrec
      have hm : n % 10 < 10 := Nat.mod_lt _ (by norm_num)
      refine ⟨?_, by simp, ?_⟩
      · rw [natVal_append, hval, natVal_singleton, digitVal_digitChar _ hm]
        simp only [List.length_cons, List.length_nil, pow_one]
        omega
      · intro c hc
        rcases List.mem_append.mp hc with hc | hc
        · exact hdig c hc
        · have hc' : c = digitChar (n % 10) := by simpa using hc
          subst hc'
          exact isDigitC_digitChar _ hm

theorem natVal_natDigits (n : Nat) : natVal (natDigits n) = n :=
  (natDigitsAux_spec n n le_rfl).1

theorem natDigits_ne_nil (n : Nat) : natDigits n ≠ [] :=
  (natDigitsAux_spec n n le_rfl).2.1

theorem natDigits_digits (n : Nat) : ∀ c ∈ natDigits n, isDigitC c = true :=
  (natDigitsAux_spec n n le_rfl).2.2

theorem natDigitsAux_length : ∀ (fuel n k : Nat), n ≤ fuel → 1 ≤ k →
    n < 10 ^ k → (natDigitsAux (fuel + 1) n).length ≤ k := by
  intro fuel
  induction fuel with
  | zero =>
    intro n k hn hk _
    have h0 : n = 0 := Nat.le_zero.mp hn
    subst h0
    show (natDigitsAux 1 0).length ≤ k
    have : natDigitsAux 1 0 = [digitChar 0] := by decide
    rw [this]
    simpa using hk
  | succ f ih =>
    intro n k hn hk hpow
    by_cases h10 : n < 10
    · unfold natDigitsAux
      rw [if_pos h10]
      simpa using hk
    · unfold natDigitsAux
      rw [if_neg h10]
      rw [List.length_append]
      have hk2 : 2 ≤ k := by
        by_contra hlt
        have hk1 : k = 1 := by omega
        subst hk1
        rw [pow_one] at hpow
        omega
      have hrec : n / 10 ≤ f := by
        have := Nat.div_lt_self (by omega : 0 < n) (by norm_num : 1 < 10)
        omega
      have hdiv : n / 10 < 10 ^ (k - 1) := by
        rw [Nat.div_lt_iff_lt_mul (by norm_num : 0 < 10)]
        calc n < 10 ^ k := hpow
          _ = 10 ^ (k - 1) * 10 := by
              rw [← Nat.pow_succ]
              congr 1
              omega
      have := ih (n / 10) (k - 1) hrec (by omega) hdiv
      simp only [List.length_cons, List.length_nil]
      omega

theorem natDigits_length (n k : Nat) (hk : 1 ≤ k) (h : n < 10 ^ k) :
    (natDigits n).length ≤ k :=
  natDigitsAux_length n n k le_rfl hk h

/-! ### Trailing-zero trimming and the fractional block -/

theorem isEmpty_false_of_ne_nil {α : Type} (l : List α) (h : l ≠ []) :
    l.isEmpty = false := by
  cases l with
  | nil => exact absurd rfl h
  | cons a t => rfl

theorem trimZeros_split (l : List Char) :
    ∃ k, l = trimZeros l ++ List.replicate k '0' := by
  refine ⟨(l.reverse.takeWhile (fun c => c == '0')).length, ?_⟩
  have h2 : (l.reverse.takeWhile (fun c => c == '0')).reverse =
      List.replicate (l.reverse.takeWhile (fun c => c == '0')).length '0' := by
    have hall : ∀ c ∈ l.reverse.takeWhile (fun c => c == '0'), c = '0' := by
      intro c hc
      have := List.mem_takeWhile_imp hc
      simpa using this
    rw [List.eq_replicate_of_mem hall, List.reverse_replicate,
      List.length_replicate]
  calc l = l.reverse.reverse := (List.reverse_reverse l).symm
    _ = (l.reverse.takeWhile (fun c => c == '0') ++
          l.reverse.dropWhile (fun c => c == '0')).reverse := by
        rw [List.takeWhile_append_dropWhile]
    _ = trimZeros l ++ (l.reverse.takeWhile (fun c => c == '0')).reverse := by
        rw [List.reverse_append]
        rfl
    _ = _ := by rw [h2]

theorem mem_of_mem_trimZeros (l : List Char) (c : Char)
    (hc : c ∈ trimZeros l) : c ∈ l := by
  obtain ⟨k, hk⟩ := trimZeros_split l
  rw [hk]
  exact List.mem_append_left _ hc

theorem fracDigits_spec (P f : Nat) (hP : 1 ≤ P) (hf : f < 10 ^ P) :
    fracDigits P f ≠ [] ∧ (∀ c ∈ fracDigits P f, isDigitC c = true) ∧
    (fracDigits P f).length ≤ P ∧
    natVal (fracDigits P f) * 10 ^ (P - (fracDigits P f).length) = f := by
  have hdlen : (natDigits f).length ≤ P := natDigits_length f P hP hf
  set d := natDigits f with hd
  set padded := List.replicate (P - d.length) '0' ++ d with hpad
  have hplen : padded.length = P := by
    rw [hpad, List.length_append, List.length_replicate]
    omega
  have hpval : natVal padded = f := by
    rw [hpad, natVal_leading_zeros, hd, natVal_natDigits]
  have hpdig : ∀ c ∈ padded, isDigitC c = true := by
    intro c hc
    rcases List.mem_append.mp hc with hc | hc
    · have : c = '0' := List.eq_of_mem_replicate hc
      subst this
      decide
    · exact natDigits_digits f c hc
  obtain ⟨k, hsplit⟩ := trimZeros_split padded
  set t := trimZeros padded with ht
  have htval : natVal t * 10 ^ k = f := by
    rw [← hpval, hsplit, natVal_trailing_zeros]
  have htlen : t.length + k = P := by
    have h1 : padded.length = t.length + k := by
      rw [hsplit, List.length_append, List.length_replicate]
    omega
  have htdig : ∀ c ∈ t, isDigitC c = true := by
    intro c hc
    exact hpdig c (mem_of_mem_trimZeros padded c hc)
  by_cases hemp : t = []
  · have hf0 : f = 0 := by
      rw [← htval, hemp]
      simp [natVal]
    have hfd : fracDigits P f = ['0'] := by
      rw [fracDigits]
      rw [← hpad, ← ht, hemp]
      rfl
    rw [hfd, hf0]
    refine ⟨by simp, by intro c hc; simp at hc; subst hc; decide,
      by simpa using hP, ?_⟩
    rw [natVal_singleton]
    have : digitVal '0' = 0 := by decide
    rw [this]
    ring
  · have hfd : fracDigits P f = t := by
      rw [fracDigits, ← hpad, ← ht]
      rw [isEmpty_false_of_ne_nil t hemp]
      rfl
    rw [hfd]
    refine ⟨hemp, htdig, by omega, ?_⟩
    have hkk : P - t.length = k := by omega
    rw [hkk]
    exact htval

/-! ### Parsing printed numbers back -/

theorem takeWhile_append_all (p : Char → Bool) (xs ys : List Char)
    (h : ∀ c ∈ xs, p c = true) :
    (xs ++ ys).takeWhile p = xs ++ ys.takeWhile p := by
  induction xs with
  | nil => simp
  | cons c t ih =>
    simp only [List.cons_append, List.takeWhile_cons]
    rw [h c (List.mem_cons_self _ _)]
    simpa using ih (fun c hc => h c (List.mem_cons_of_mem _ hc))

theorem dropWhile_append_all (p : Char → Bool) (xs ys : List Char)
    (h : ∀ c ∈ xs, p c = true) :
    (xs ++ ys).dropWhile p = ys.dropWhile p := by
  induction xs with
  | nil => simp
  | cons c t ih =>
    simp only [List.cons_append, List.dropWhile_cons]
    rw [h c (List.mem_cons_self _ _)]
    simpa using ih (fun c hc => h c (List.mem_cons_of_mem _ hc))

theorem allDigits_of (l : List Char) (h : ∀ c ∈ l, isDigitC c = true) :
    allDigits l = true := by
  rw [allDigits, List.all_eq_true]
  exact h

theorem parseNat_digits (l : List Char) (hne : l ≠ [])
    (hd : ∀ c ∈ l, isDigitC c = true) : parseNat l = some (natVal l) := by
  simp [parseNat, isEmpty_false_of_ne_nil l hne, allDigits_of l hd]

theorem parseNat_none_of_dot (l : List Char) (h : '.' ∈ l) :
    parseNat l = none := by
  have h2 : allDigits l = false := by
    cases hall : allDigits l with
    | false => rfl
    | true =>
      rw [allDigits, List.all_eq_true] at hall
      exact absurd (hall '.' h) (by decide)
  by_cases he : l.isEmpty <;> simp [parseNat, he, h2]

theorem parseInt_none_of_dot (l : Cell) (h : '.' ∈ l) : parseInt l = none := by
  cases l with
  | nil => rfl
  | cons c r =>
    by_cases hc : c = '-'
    · subst hc
      have hr : '.' ∈ r := by
        rcases List.mem_cons.mp h with h1 | h1
        · exact absurd h1 (by decide)
        · exact h1
      simp [parseInt, parseNat_none_of_dot r hr]
    · by_cases hc2 : c = '+'
      · subst hc2
        have hr : '.' ∈ r := by
          rcases List.mem_cons.mp h with h1 | h1
          · exact absurd h1 (by decide)
          · exact h1
        simp [parseInt, parseNat_none_of_dot r hr]
      · simp [parseInt, hc, hc2, parseNat_none_of_dot _ h]

theorem parseUFloat_mk (A : Nat) (fp : List Char) (_h1 : fp ≠ [])
    (h2 : ∀ c ∈ fp, isDigitC c = true) :
    parseUFloat (natDigits A ++ '.' :: fp) =
      some (A * 10 ^ fp.length + natVal fp, fp.length) := by
  have hAd : ∀ c ∈ natDigits A, (fun c => (c ≠ '.' : Bool)) c = true := by
    intro c hc
    simpa using isDigitC_ne_dot c (natDigits_digits A c hc)
  have ht : (natDigits A ++ '.' :: fp).takeWhile (fun c => c ≠ '.') =
      natDigits A := by
    rw [takeWhile_append_all _ _ _ hAd]
    simp [List.takeWhile_cons]
  have hdp : (natDigits A ++ '.' :: fp).dropWhile (fun c => c ≠ '.') =
      '.' :: fp := by
    rw [dropWhile_append_all _ _ _ hAd]
    simp [List.dropWhile_cons]
  have hcond : ((!(natDigits A).isEmpty || !fp.isEmpty) &&
      allDigits (natDigits A) && allDigits fp) = true := by
    rw [isEmpty_false_of_ne_nil _ (natDigits_ne_nil A),
      allDigits_of _ (natDigits_digits A), allDigits_of _ h2]
    simp
  rw [parseUFloat]
  rw [hdp, ht]
  dsimp only
  rw [if_pos hcond, natVal_natDigits]

theorem parseFloat_neg (u : Cell) :
    parseFloat ('-' :: u) =
      (parseUFloat u).map (fun x => (-(x.1 : Int), x.2)) := by
  simp [parseFloat]

theorem parseFloat_of_digit_head (c : Char) (cs : Cell)
    (hc : isDigitC c = true) :
    parseFloat (c :: cs) =
      (parseUFloat (c :: cs)).map (fun x => ((x.1 : Int), x.2)) := by
  simp [parseFloat, isDigitC_ne_dash c hc, isDigitC_ne_plus c hc]

theorem natDigits_cons_shape (X : Nat) (ys : List Char) :
    ∃ c cs, natDigits X ++ ys = c :: cs ∧ isDigitC c = true := by
  cases hd : natDigits X with
  | nil => exact absurd hd (natDigits_ne_nil X)
  | cons c cs =>
    refine ⟨c, cs ++ ys, by simp [hd], ?_⟩
    exact natDigits_digits X c (hd ▸ List.mem_cons_self _ _)

theorem dot_mem_printFloat (p : Int) (n : Int) : '.' ∈ printFloat p n := by
  rw [printFloat]
  by_cases h1 : 0 < p <;> by_cases h2 : n < 0 <;> simp [h1, h2]

theorem parseInt_printFloat (p : Int) (n : Int) :
    parseInt (printFloat p n) = none :=
  parseInt_none_of_dot _ (dot_mem_printFloat p n)

/-! ### Exact rounding of printed values -/

theorem rndDec_exact (z : Int) (e : Nat) :
    rndDec (z * ((10 ^ e : Nat) : Int), e) = z := by
  have hd : (0 : Int) < ((10 ^ e : Nat) : Int) := by
    have h0 : 0 < (10 : Nat) ^ e := pow_pos (by norm_num) e
    exact_mod_cast h0
  have hf : (z * ((10 ^ e : Nat) : Int)).fdiv ((10 ^ e : Nat) : Int) = z :=
    Int.mul_fdiv_cancel z (ne_of_gt hd)
  simp only [rndDec, hf, sub_self, mul_zero, if_pos hd]

theorem roundtrip_unsigned (P : Nat) (hP : 1 ≤ P) (a : Nat) :
    parseUFloat (natDigits (a / 10 ^ P) ++ '.' :: fracDigits P (a % 10 ^ P)) =
      some (a / 10 ^ P * 10 ^ (fracDigits P (a % 10 ^ P)).length +
          natVal (fracDigits P (a % 10 ^ P)),
        (fracDigits P (a % 10 ^ P)).length) ∧
    (a / 10 ^ P * 10 ^ (fracDigits P (a % 10 ^ P)).length +
        natVal (fracDigits P (a % 10 ^ P))) * 10 ^ P =
      a * 10 ^ (fracDigits P (a % 10 ^ P)).length := by
  have hfP : a % 10 ^ P < 10 ^ P := Nat.mod_lt _ (pow_pos (by norm_num) P)
  obtain ⟨hfne, hfdig, hflen, hfval⟩ := fracDigits_spec P (a % 10 ^ P) hP hfP
  refine ⟨parseUFloat_mk _ _ hfne hfdig, ?_⟩
  calc (a / 10 ^ P * 10 ^ (fracDigits P (a % 10 ^ P)).length +
        natVal (fracDigits P (a % 10 ^ P))) * 10 ^ P
      = a / 10 ^ P * 10 ^ P * 10 ^ (fracDigits P (a % 10 ^ P)).length +
        natVal (fracDigits P (a % 10 ^ P)) * 10 ^ P := by ring
    _ = a / 10 ^ P * 10 ^ P * 10 ^ (fracDigits P (a % 10 ^ P)).length +
        (a % 10 ^ P) * 10 ^ (fracDigits P (a % 10 ^ P)).length := by
        congr 1
        calc natVal (fracDigits P (a % 10 ^ P)) * 10 ^ P
            = natVal (fracDigits P (a % 10 ^ P)) *
              (10 ^ (P - (fracDigits P (a % 10 ^ P)).length) *
                10 ^ (fracDigits P (a % 10 ^ P)).length) := by
              rw [← pow_add, Nat.sub_add_cancel hflen]
          _ = natVal (fracDigits P (a % 10 ^ P)) *
                10 ^ (P - (fracDigits P (a % 10 ^ P)).length) *
                10 ^ (fracDigits P (a % 10 ^ P)).length := by ring
          _ = (a % 10 ^ P) * 10 ^ (fracDigits P (a % 10 ^ P)).length := by
              rw [hfval]
    _ = (a / 10 ^ P * 10 ^ P + a % 10 ^ P) *
          10 ^ (fracDigits P (a % 10 ^ P)).length := by ring
    _ = a * 10 ^ (fracDigits P (a % 10 ^ P)).length := by
        rw [Nat.div_add_mod']

theorem roundtrip_rnd (p : Int) (hp : 0 ≤ p) (n : Int) :
    ∃ x, parseFloat (printFloat p n) = some x ∧ rndDec (scale10 p x) = n := by
  by_cases hpos : 0 < p
  · obtain ⟨hpu, hmul⟩ := roundtrip_unsigned p.toNat (by omega) n.natAbs
    set P := p.toNat with hPdef
    set a := n.natAbs with hadef
    set F := fracDigits P (a % 10 ^ P) with hFdef
    set m := a / 10 ^ P * 10 ^ F.length + natVal F with hmdef
    have hbody : printFloat p n = (if n < 0 then
        '-' :: (natDigits (a / 10 ^ P) ++ '.' :: F) else
        natDigits (a / 10 ^ P) ++ '.' :: F) := by
      rw [printFloat, if_pos hpos]
    have hcast : (m : Int) * (10 : Int) ^ P =
        (a : Int) * ((10 ^ F.length : Nat) : Int) := by
      exact_mod_cast hmul
    by_cases hneg : n < 0
    · refine ⟨(-(m : Int), F.length), ?_, ?_⟩
      · rw [hbody, if_pos hneg, parseFloat_neg, hpu]
        rfl
      · have hsc : scale10 p (-(m : Int), F.length) =
            ((-(m : Int)) * (10 : Int) ^ P, F.length) := by
          rw [scale10, if_pos hp]
        rw [hsc]
        have hz : (-(m : Int)) * (10 : Int) ^ P =
            (-(a : Int)) * ((10 ^ F.length : Nat) : Int) := by
          rw [neg_mul, hcast, neg_mul]
        rw [hz, rndDec_exact]
        omega
    · refine ⟨((m : Int), F.length), ?_, ?_⟩
      · rw [hbody, if_neg hneg]
        obtain ⟨c, cs, hcc, hcd⟩ := natDigits_cons_shape (a / 10 ^ P) ('.' :: F)
        rw [hcc, parseFloat_of_digit_head c cs hcd, ← hcc, hpu]
        rfl
      · have hsc : scale10 p ((m : Int), F.length) =
            ((m : Int) * (10 : Int) ^ P, F.length) := by
          rw [scale10, if_pos hp]
        rw [hsc, hcast, rndDec_exact]
        omega
  · have hp0 : p = 0 := by omega
    subst hp0
    have hbody : printFloat 0 n = (if n < 0 then
        '-' :: (natDigits n.natAbs ++ ['.', '0']) else
        natDigits n.natAbs ++ ['.', '0']) := by
      rw [printFloat]
      norm_num
    have hpu : parseUFloat (natDigits n.natAbs ++ '.' :: ['0']) =
        some (n.natAbs * 10 ^ (1 : Nat) + natVal ['0'], 1) :=
      parseUFloat_mk n.natAbs ['0'] (by simp)
        (by intro c hc; simp at hc; subst hc; decide)
    have hval : n.natAbs * 10 ^ (1 : Nat) + natVal ['0'] = n.natAbs * 10 := by
      rw [natVal_singleton]
      norm_num
      decide
    have hsc : ∀ z : Int, scale10 0 (z, 1) = (z, 1) := by
      intro z
      rw [scale10, if_pos le_rfl]
      norm_num
    have hrnd : ∀ z : Int, rndDec (z * 10, 1) = z := by
      intro z
      have h10 : ((10 ^ (1 : Nat) : Nat) : Int) = 10 := by norm_num
      have := rndDec_exact z 1
      rw [h10] at this
      exact this
    by_cases hneg : n < 0
    · refine ⟨(-(n.natAbs * 10 : Nat), 1), ?_, ?_⟩
      · rw [hbody, if_pos hneg]
        have : (['.', '0'] : List Char) = '.' :: ['0'] := rfl
        rw [this, parseFloat_neg, hpu, hval]
        rfl
      · rw [hsc]
        have hz : (-(n.natAbs * 10 : Nat) : Int) = (-(n.natAbs : Nat) : Int) * 10 := by
          push_cast
          ring
        rw [hz, hrnd]
        omega
    · refine ⟨((n.natAbs * 10 : Nat), 1), ?_, ?_⟩
      · rw [hbody, if_neg hneg]
        obtain ⟨c, cs, hcc, hcd⟩ := natDigits_cons_shape n.natAbs ['.', '0']
        rw [hcc, parseFloat_of_digit_head c cs hcd, ← hcc]
        have : (['.', '0'] : List Char) = '.' :: ['0'] := rfl
        rw [this, hpu, hval]
        rfl
      · rw [hsc]
        have hz : ((n.natAbs * 10 : Nat) : Int) = ((n.natAbs : Nat) : Int) * 10 := by
          push_cast
          ring
        rw [hz, hrnd]
        omega

theorem round_cell_idem (p : Int) (hp : 0 ≤ p) (s : Cell) :
    round_cell p (round_cell p s) = round_cell p s := by
  cases h1 : parseInt s with
  | some k => simp [round_cell, h1]
  | none =>
    cases h2 : parseFloat s with
    | none => simp [round_cell, h1, h2]
    | some x =>
      have hout : round_cell p s = printFloat p (rndDec (scale10 p x)) := by
        simp [round_cell, h1, h2]
      rw [hout]
      obtain ⟨y, hy, hr⟩ := roundtrip_rnd p hp (rndDec (scale10 p x))
      simp [round_cell, parseInt_printFloat, hy, hr]

/-! ### Claim theorems -/

/-- Claim C1 (refuted; the streaming strategy evaluated at the failing
input): with the default configuration — both delimiters `','`, complement
off, rounding precision `-1` (disabled) — on the input `x`-header /
`1.5`-cell table, the streaming strategy `csv_select_cols` emits `0.0` for
the cell `1.5`, because it calls `round_row` unconditionally, while the
in-memory pandas strategy applies rounding only when the precision is
`≥ 0` and would pass `1.5` through verbatim: the two output streams
differ, refuting the claimed equivalence. -/
theorem claim1_streaming_diverges_from_pandas :
    csv_select_cols ⟨false, ',', ',', -1⟩ ["x".toList] ("x\n1.5\n").toList =
      Except.ok ("x\n0.0\n").toList ∧
    ("x\n0.0\n").toList ≠ ("x\n1.5\n").toList := by
  constructor
  · rfl
  · decide

/-- Claim C2 (refuted; the code evaluated at the failing input): with the
rounding precision `-1`, i.e. rounding disabled per the claim, `round_row`
— which the streaming strategy applies to every row unconditionally —
still rewrites the float cell `1.5` to `0.0` instead of passing it through
verbatim. -/
theorem claim2_round_row_at_negative_precision :
    round_row (-1) [("1.5").toList] = [("0.0").toList] ∧
    ("0.0").toList ≠ ("1.5").toList := by
  constructor
  · rfl
  · decide

/-- Claim C3 (refuted; the code evaluated at the failing input): configured
with input delimiter `','` and output delimiter `';'`, the streaming
strategy joins its output records with `','` — the input delimiter — and
no `';'` occurs in the output at all, because the source builds the
`csv.writer` with `delimiter=args.input_delimiter` and the reader with
`delimiter=args.output_delimiter` (swapped).  The newline part of the
claim holds: each record ends in a single newline. -/
theorem claim3_writer_uses_input_delimiter :
    csv_select_cols ⟨false, ',', ';', -1⟩ ["a".toList, "b".toList]
        ("a;b\n1;2\n").toList =
      Except.ok ("a,b\n1,2\n").toList ∧
    ';' ∉ ("a,b\n1,2\n").toList := by
  constructor
  · rfl
  · decide

/-- Claim C4, counterexample: the Column Projector does not skip comment
rows — projecting the two-row input whose second row is `#c` reproduces
the comment row in the output stream. -/
theorem claim4_projector_keeps_comment_rows :
    csv_select_cols ⟨false, ',', ',', -1⟩ ["x".toList] ("x\n#c\n").toList =
      Except.ok ("x\n#c\n").toList := rfl

/-- Claim C4, amended: input rows whose first cell starts with `#` never
appear in any Wide Splitter output file (the Column Projector part of the
original claim is false, see the counterexample): for every input whose
rows are nonempty, every comment row is absent from every output table of
`CsvWideSplit_run`. -/
theorem claim4_splitter_comment_rows_absent (ncols0 : Int) (rows : List Row)
    (hne : ∀ r ∈ rows, r ≠ []) (ts : List (List Row))
    (hts : CsvWideSplit_run ncols0 rows = some ts) :
    ∀ t ∈ ts, ∀ crow ∈ rows, hashRow crow = true → crow ∉ t := by
  intro t ht crow hcrow hhash hmem
  have h := run_output_no_hash ncols0 rows hne ts hts t ht crow hmem
  rw [hhash] at h
  simp at h

/-- Witness for the amended claim C4 at a concrete input: splitting the
three-row table whose middle row is the comment row `#,1` with chunk width
1 produces an output table that does not contain the comment row. -/
theorem claim4_splitter_comment_rows_absent_witness :
    ([['#'], ['1']] : Row) ∉ [[([] : Cell), ['b']], [['k'], ['2']]] :=
  claim4_splitter_comment_rows_absent 1
    [[['a'], ['b']], [['#'], ['1']], [['k'], ['2']]]
    (by decide) [[[([] : Cell), ['b']], [['k'], ['2']]]] (by rfl)
    [[([] : Cell), ['b']], [['k'], ['2']]] (by decide)
    [['#'], ['1']] (by decide) (by decide)

/-- Claim C6: if any requested column name is absent from the first parsed
row (the header), the streaming Column Projector — in normal and in
complement mode alike, for any delimiters and precision — returns the
error carrying exactly the list of missing names (the diagnostic printed
to stderr before `sys.exit(1)`), and produces no output; when no requested
name is missing, the run does not fail. -/
theorem claim6_missing_columns (args : SelArgs) (columns : List Cell)
    (input : List Char) (hd : Row) (rest : List Row)
    (hread : readCsv args.output_delimiter input = hd :: rest) :
    ((∃ c ∈ columns, c ∉ hd) →
      csv_select_cols args columns input =
        Except.error (set_diff columns hd) ∧
      set_diff columns hd ≠ [] ∧
      (∀ c, c ∈ set_diff columns hd ↔ c ∈ columns ∧ c ∉ hd)) ∧
    ((∀ c ∈ columns, c ∈ hd) →
      ∃ out, csv_select_cols args columns input = Except.ok out) := by
  constructor
  · intro hmiss
    have herr := check_columns_error columns hd hmiss
    have hne : set_diff columns hd ≠ [] := by
      intro h0
      obtain ⟨c, hc1, hc2⟩ := hmiss
      exact hc2 ((set_diff_eq_nil_iff _ _).mp h0 c hc1)
    refine ⟨?_, hne, fun c => mem_set_diff columns hd c⟩
    rw [csv_select_cols, hread]
    dsimp only
    rw [herr]
  · intro hall
    have hok := check_columns_ok columns hd hall
    simp only [csv_select_cols, hread, hok]
    exact ⟨_, rfl⟩

/-- Witness for claim C6 at a concrete input: requesting the absent column
`z` of the header `a,b` yields the error carrying exactly `[z]`. -/
theorem claim6_missing_columns_witness :
    csv_select_cols ⟨false, ',', ',', -1⟩ ["z".toList] ("a,b\n1,2\n").toList =
      Except.error (set_diff ["z".toList] ["a".toList, "b".toList]) ∧
    set_diff ["z".toList] ["a".toList, "b".toList] ≠ [] := by
  have h := (claim6_missing_columns ⟨false, ',', ',', -1⟩ ["z".toList]
    (("a,b\n1,2\n").toList) ["a".toList, "b".toList]
    [["1".toList, "2".toList]] (by rfl)).1 (by decide)
  exact ⟨h.1, h.2.1⟩

/-- Claim C8, counterexample: on a header with no splittable column
(length 1) and chunk width 0, the splitter does not produce one split —
the source raises `ZeroDivisionError` in `compute_splits` (`ncols //
self.args.ncols` with both sides 0), modelled as `none`. -/
theorem claim8_zero_width_crash :
    CsvWideSplit_run 0 [[['x']]] = none := rfl

/-- Claim C8, amended: for every input whose header has at least one
splittable column (header length ≥ 2), a chunk width `≤ 0` makes the
splitter treat the entire splittable-column count as one chunk and
produce exactly one split containing every splittable column (and every
data row in full); with a header of length 1 the division by the zero
effective chunk width raises instead (see the counterexample). -/
theorem claim8_nonpositive_width_single_split (ncols0 : Int)
    (rows : List Row) (header : Row) (data : List Row)
    (hk : keptRows rows = header :: data) (hW : ncols0 ≤ 0)
    (hL : 2 ≤ header.length)
    (hlen : ∀ r ∈ rows, r.length = header.length) :
    CsvWideSplit_run ncols0 rows =
      some [(([] : Cell) :: header.drop 1) :: data] := by
  rw [run_eq_of_nonpos ncols0 rows header data hk hW hL]
  have hslice : pySlice 1 (1 + (header.length - 1)) header = header.drop 1 := by
    rw [pySlice, Nat.add_sub_cancel_left]
    refine List.take_of_length_le ?_
    rw [List.length_drop]
  have hrows : data.map (fun row => row.take 1 ++
      pySlice 1 (1 + (header.length - 1)) row) = data := by
    have hid : ∀ row ∈ data, row.take 1 ++
        pySlice 1 (1 + (header.length - 1)) row = row := by
      intro row hrow
      have hrowmem : row ∈ rows := by
        have : row ∈ keptRows rows := by
          rw [hk]
          exact List.mem_cons_of_mem _ hrow
        exact ((mem_keptRows rows row).mp this).1
      have hrl : row.length = header.length := hlen row hrowmem
      rw [pySlice, Nat.add_sub_cancel_left]
      have htake : (row.drop 1).take (header.length - 1) = row.drop 1 := by
        refine List.take_of_length_le ?_
        rw [List.length_drop]
        omega
      rw [htake, List.take_append_drop]
    calc data.map (fun row => row.take 1 ++
          pySlice 1 (1 + (header.length - 1)) row)
        = data.map (fun row => row) := List.map_congr_left hid
      _ = data := List.map_id' data
  rw [hslice, hrows]

/-- Witness for the amended claim C8 at a concrete input: chunk width 0 on
the header `k,a,b` with one data row produces exactly one split carrying
both splittable columns and the data row in full. -/
theorem claim8_nonpositive_width_single_split_witness :
    CsvWideSplit_run 0 [[['k'], ['a'], ['b']], [['0'], ['1'], ['2']]] =
      some [[[([] : Cell), ['a'], ['b']], [['0'], ['1'], ['2']]]] :=
  claim8_nonpositive_width_single_split 0
    [[['k'], ['a'], ['b']], [['0'], ['1'], ['2']]]
    [['k'], ['a'], ['b']] [[['0'], ['1'], ['2']]]
    (by rfl) (by decide) (by decide) (by decide)

/-- Claim C5: `header_indices` is the one-pass forward scan with a cursor
into the column list — the computed index map is at most as long as the
column list; its indices are strictly increasing positions of the header;
the header cells at the recorded indices are exactly the matched prefix of
the column list, in order; and it is greedy-maximal: any prefix of the
column list that embeds as a left-to-right subsequence of the header is
matched in full, so exactly the trailing names that cannot be so matched
are silently dropped (the map may be shorter than the column list). -/
theorem claim5_header_indices_forward_scan (header columns : List Cell) :
    (header_indices header columns).length ≤ columns.length ∧
    List.Pairwise (· < ·) (header_indices header columns) ∧
    (∀ j ∈ header_indices header columns, j < header.length) ∧
    (header_indices header columns).map (fun j => header.getD j []) =
      columns.take (header_indices header columns).length ∧
    (∀ m, m ≤ columns.length → (columns.take m).Sublist header →
      m ≤ (header_indices header columns).length) := by
  refine ⟨hiAux_length_le header columns 0, hiAux_pairwise header columns 0,
    ?_, ?_, ?_⟩
  · intro j hj
    have := hiAux_mem_bounds header columns 0 j hj
    omega
  · have h := hiAux_map_getD header columns 0
    simpa using h
  · intro m hm hs
    exact hiAux_greedy_max header columns m 0 hm hs

/-- Witness for claim C5 at a concrete input: on the header `a,b,c` with
requested columns `b,a` the scan records only index 1 (the name `a`
cannot be matched after `b` and is silently dropped). -/
theorem claim5_header_indices_forward_scan_witness :
    (header_indices [['a'], ['b'], ['c']] [['b'], ['a']]).length ≤ 2 ∧
    List.Pairwise (· < ·) (header_indices [['a'], ['b'], ['c']] [['b'], ['a']]) ∧
    (1 : Nat) < ([['a'], ['b'], ['c']] : List Cell).length ∧
    (header_indices [['a'], ['b'], ['c']] [['b'], ['a']]).map
        (fun j => ([['a'], ['b'], ['c']] : List Cell).getD j []) =
      ([['b'], ['a']] : List Cell).take
        (header_indices [['a'], ['b'], ['c']] [['b'], ['a']]).length ∧
    header_indices [['a'], ['b'], ['c']] [['b'], ['a']] = [1] := by
  have h := claim5_header_indices_forward_scan [['a'], ['b'], ['c']]
    [['b'], ['a']]
  refine ⟨h.1, h.2.1, ?_, h.2.2.2.1, by decide⟩
  exact h.2.2.1 1 (by decide)

/-- Claim C7: for a retained header of length `L` and chunk width `W > 0`
the splitter produces exactly `ceil((L-1)/W)` splits; the concatenation of
the splits' header slices — each split's header row with its key
placeholder removed — is exactly the splittable part of the header, so
the column ranges are contiguous, non-overlapping, cover every splittable
column exactly once, in original order; and every split has exactly one
row per retained data row (plus its header row). -/
theorem claim7_split_partition (ncols0 : Int) (rows : List Row)
    (header : Row) (data : List Row)
    (_hne : ∀ r ∈ rows, r ≠ []) (hk : keptRows rows = header :: data)
    (hW : 0 < ncols0) :
    ∃ ts, CsvWideSplit_run ncols0 rows = some ts ∧
      ts.length = (header.length - 1 + (ncols0.toNat - 1)) / ncols0.toNat ∧
      (ts.map (fun t => (t.headD []).drop 1)).flatten = header.drop 1 ∧
      (∀ t ∈ ts, t.length = data.length + 1) := by
  have hWn : 0 < ncols0.toNat := by omega
  have hslice : ∀ i : Nat,
      pySlice (i * ncols0.toNat + 1) (i * ncols0.toNat + 1 + ncols0.toNat)
        header =
      ((header.drop 1).drop (i * ncols0.toNat)).take ncols0.toNat := by
    intro i
    rw [pySlice, Nat.add_sub_cancel_left, List.drop_drop]
    congr 2
    omega
  refine ⟨_, run_eq_of_pos ncols0 rows header data hk hW, ?_, ?_, ?_⟩
  · rw [List.length_map, List.length_range]
    exact nsplitsFor_eq_ceil (header.length - 1) ncols0.toNat hWn
  · rw [List.map_map]
    have hmc : ∀ i ∈ List.range (nsplitsFor (header.length - 1) ncols0.toNat),
        ((fun t : List Row => (t.headD []).drop 1) ∘ (fun i =>
          (([] : Cell) :: pySlice (i * ncols0.toNat + 1)
              (i * ncols0.toNat + 1 + ncols0.toNat) header) ::
            data.map (fun row => row.take 1 ++
              pySlice (i * ncols0.toNat + 1)
                (i * ncols0.toNat + 1 + ncols0.toNat) row))) i =
        ((header.drop 1).drop (i * ncols0.toNat)).take ncols0.toNat := by
      intro i _
      simp only [Function.comp_apply, List.headD_cons, List.drop_succ_cons,
        List.drop_zero]
      exact hslice i
    rw [List.map_congr_left hmc]
    have hlen1 : header.length - 1 = (header.drop 1).length :=
      (List.length_drop 1 header).symm
    rw [hlen1]
    exact chunks_flatten ncols0.toNat hWn (header.drop 1).length
      (header.drop 1) le_rfl
  · intro t ht
    obtain ⟨i, _, rfl⟩ := List.mem_map.mp ht
    simp

/-- Witness for claim C7 at a concrete input: splitting `k,a,b,c` with one
data row at chunk width 2 yields 2 splits covering `a,b` and `c`, each
with 2 rows. -/
theorem claim7_split_partition_witness :
    ∃ ts, CsvWideSplit_run 2
        [[['k'], ['a'], ['b'], ['c']], [['r'], ['1'], ['2'], ['3']]] =
        some ts ∧
      ts.length = 2 ∧
      (ts.map (fun t => (t.headD []).drop 1)).flatten =
        [['a'], ['b'], ['c']] ∧
      (∀ t ∈ ts, t.length = 2) :=
  claim7_split_partition 2
    [[['k'], ['a'], ['b'], ['c']], [['r'], ['1'], ['2'], ['3']]]
    [['k'], ['a'], ['b'], ['c']] [[['r'], ['1'], ['2'], ['3']]]
    (by decide) (by rfl) (by decide)

/-- Claim C9: cell rounding is idempotent at every precision `p ≥ 0`
(rounding a value already rounded at `p` again at `p` returns it
unchanged), `3.14159` rounds to `3.14` at precision 2, the integer literal
`42` is left unchanged at every precision, and the non-numeric `abc` is
left unchanged at every precision. -/
theorem claim9_rounding_idempotent (p : Int) (hp : 0 ≤ p) (s : Cell) :
    round_cell p (round_cell p s) = round_cell p s ∧
    round_cell 2 ("3.14159".toList) = "3.14".toList ∧
    (∀ q : Int, round_cell q ("42".toList) = "42".toList) ∧
    (∀ q : Int, round_cell q ("abc".toList) = "abc".toList) := by
  refine ⟨round_cell_idem p hp s, by decide, ?_, ?_⟩
  · intro q
    have h42 : parseInt ['4', '2'] = some 42 := by decide
    simp [round_cell, h42]
  · intro q
    have hi : parseInt ['a', 'b', 'c'] = none := by decide
    have hf : parseFloat ['a', 'b', 'c'] = none := by decide
    simp [round_cell, hi, hf]

/-- Witness for claim C9 at a concrete input: precision 2 is admissible,
rounding the already-rounded `2.718` again at precision 2 returns it
unchanged, and `42` is unchanged at precision 7. -/
theorem claim9_rounding_idempotent_witness :
    (0 : Int) ≤ 2 ∧
    round_cell 2 (round_cell 2 ("2.718".toList)) =
      round_cell 2 ("2.718".toList) ∧
    round_cell 7 ("42".toList) = "42".toList := by
  refine ⟨by decide,
    (claim9_rounding_idempotent 2 (by decide) ("2.718".toList)).1, ?_⟩
  exact (claim9_rounding_idempotent 2 (by decide) ("2.718".toList)).2.2.1 7

/-- Claim C10: in complement mode the effective column list is
`set_diff header C` — the header columns not in `C`, in header order —
and resolving it through `header_indices` and projecting yields exactly
those columns: on the header row the projection returns `set_diff header
C` itself, and on every well-formed data row it returns exactly the cells
under the header columns not in `C`, in original order. -/
theorem claim10_complement_projection (header C : List Cell)
    (_hall : ∀ c ∈ C, c ∈ header) :
    (header_indices header (set_diff header C)).map
        (fun j => header.getD j []) = set_diff header C ∧
    (∀ row : Row, row.length = header.length →
      (header_indices header (set_diff header C)).map
          (fun j => row.getD j []) =
        (header.zip row).filterMap
          (fun pr => if pr.1 ∈ C then none else some pr.2)) := by
  have hfun : (fun pr : Cell × Cell =>
      if (fun c => decide (c ∉ C)) pr.1 then some pr.2 else none) =
      (fun pr : Cell × Cell => if pr.1 ∈ C then none else some pr.2) := by
    funext pr
    by_cases h : pr.1 ∈ C <;> simp [h]
  have hrow : ∀ row : Row, row.length = header.length →
      (header_indices header (set_diff header C)).map
        (fun j => row.getD j []) =
      (header.zip row).filterMap
        (fun pr => if pr.1 ∈ C then none else some pr.2) := by
    intro row hlen
    have h := hiAux_filter_map (fun c => decide (c ∉ C)) header 0 row hlen
    rw [hfun] at h
    simpa [header_indices, set_diff] using h
  refine ⟨?_, hrow⟩
  have h := hrow header rfl
  rw [h, ← hfun]
  exact zip_self_filterMap (fun c => decide (c ∉ C)) header

/-- Witness for claim C10 at a concrete input: complementing `b` against
the header `a,b,c` projects the header to `a,c` and the data row `1,2,3`
to `1,3`. -/
theorem claim10_complement_projection_witness :
    (header_indices [['a'], ['b'], ['c']]
        (set_diff [['a'], ['b'], ['c']] [['b']])).map
      (fun j => ([['a'], ['b'], ['c']] : List Cell).getD j []) =
      set_diff [['a'], ['b'], ['c']] [['b']] ∧
    (header_indices [['a'], ['b'], ['c']]
        (set_diff [['a'], ['b'], ['c']] [['b']])).map
      (fun j => ([['1'], ['2'], ['3']] : Row).getD j []) =
      [['1'], ['3']] := by
  have h := claim10_complement_projection [['a'], ['b'], ['c']] [['b']]
    (by decide)
  refine ⟨h.1, ?_⟩
  have h2 := h.2 [['1'], ['2'], ['3']] (by decide)
  rw [h2]
  decide

end CsvTools
